import Mathlib

/-
Verification of the markdown conversion core of the markdown-editor
repository.  The TypeScript source is embedded shallowly: strings are
`List Char` / `String`, the JavaScript regex-replace pipelines are
translated into explicit recursive scanners with the same matching
semantics (leftmost match, lazy/greedy quantifiers as in the source
patterns, one-character advance on failure), and the external
collaborators (marked's `parse`, Prism's grammar table) are parameters.
Fuel arguments bound recursion; every scanner consumes at least one
character per step, so `length + 1` fuel is always sufficient.
-/

namespace MarkdownEditor

/-- The ASCII members of the JavaScript regex class `\s` (space, tab,
newline, carriage return, vertical tab, form feed). -/
def isJsSpace (c : Char) : Bool :=
  c = ' ' || c = '\t' || c = '\n' || c = '\r' || c = '\x0b' || c = '\x0c'

/-- The JavaScript regex class `\w`: ASCII letters, digits and underscore. -/
def isWordChar (c : Char) : Bool :=
  ('a' ≤ c && c ≤ 'z') || ('A' ≤ c && c ≤ 'Z') || ('0' ≤ c && c ≤ '9') || c = '_'

/-- Lowercase ASCII letter, for the `[a-z]` class of the `on[a-z]+=` pattern. -/
def isLowerAlpha (c : Char) : Bool := 'a' ≤ c && c ≤ 'z'

/-- JS `String.prototype.trim()` over the modelled whitespace class. -/
def jsTrim (l : List Char) : List Char :=
  ((l.dropWhile isJsSpace).reverse.dropWhile isJsSpace).reverse

/-- Number of maximal non-whitespace runs; the boolean records whether the
previous character was inside a run.  On a trimmed non-empty string this
equals JS `str.split(/\s+/).length`, and it is `0` on the empty string,
matching the `plainText ? ... : 0` guard in `countWords`. -/
def countTokensAux : Bool → List Char → Nat
  | _, [] => 0
  | inTok, c :: rest =>
    if isJsSpace c then countTokensAux false rest
    else (if inTok then 0 else 1) + countTokensAux true rest

def countTokens (l : List Char) : Nat := countTokensAux false l

/-- The `.replace(/\n/g, ' ')` step. -/
def newlinesToSpaces (l : List Char) : List Char :=
  l.map (fun c => if c = '\n' then ' ' else c)

/-- Boolean list-prefix test (`sub` is an initial segment of the second list). -/
def isPrefixB : List Char → List Char → Bool
  | [], _ => true
  | _ :: _, [] => false
  | a :: as, b :: bs => a = b && isPrefixB as bs

/-- Boolean substring test: `sub` occurs contiguously inside the list. -/
def substrB (sub : List Char) : List Char → Bool
  | [] => isPrefixB sub []
  | l@(_ :: rest) => isPrefixB sub l || substrB sub rest

/-- String `sub` occurs as a contiguous substring of `s`. -/
def strHasSub (sub s : String) : Prop := substrB sub.data s.data = true

instance (sub s : String) : Decidable (strHasSub sub s) := by
  unfold strHasSub; exact inferInstance

/-- JS `String.prototype.startsWith`. -/
def strStartsWith (s pre : String) : Bool := isPrefixB pre.data s.data

/-- One JS `String.prototype.replace(/c/g, r)` pass for a single character `c`. -/
def replaceChar (c : Char) (r : List Char) : List Char → List Char
  | [] => []
  | x :: xs => if x = c then r ++ replaceChar c r xs else x :: replaceChar c r xs

/-- The HTML-escaping fallback used by the highlighter and the code
renderer: five sequential `.replace` calls, in source order
(`& < > " '`). -/
def escapeHtmlChars (l : List Char) : List Char :=
  replaceChar '\'' "&#39;".data
    (replaceChar '"' "&quot;".data
      (replaceChar '>' "&gt;".data
        (replaceChar '<' "&lt;".data
          (replaceChar '&' "&amp;".data l))))

def escapeHtml (s : String) : String := String.mk (escapeHtmlChars s.data)

/-- Collapse of runs of non-word characters to a single hyphen: the
`.replace(/[^\w]+/g, '-')` step of the heading slug.  The boolean records
whether the scanner is inside a non-word run. -/
def collapseNonWordAux : Bool → List Char → List Char
  | _, [] => []
  | inRun, c :: rest =>
    if isWordChar c then c :: collapseNonWordAux false rest
    else (if inRun then [] else ['-']) ++ collapseNonWordAux true rest

/-- Heading id derivation: `text.toLowerCase().replace(/[^\w]+/g, '-')`. -/
def slugChars (l : List Char) : List Char :=
  collapseNonWordAux false (l.map Char.toLower)

def slugString (s : String) : String := String.mk (slugChars s.data)

/-- Head of the list is the given character. -/
def headIs (d : Char) : List Char → Bool
  | e :: _ => e = d
  | [] => false

/-- Head of the list is a whitespace character. -/
def headWsB : List Char → Bool
  | e :: _ => isJsSpace e
  | [] => false

def isDigitChar (c : Char) : Bool := '0' ≤ c && c ≤ '9'

/-- One global pass of `.replace(/#{1,6}\s+/g, '')`.  A match at a position
requires the full run of `#` there to have length 1..6 (a longer run can
never satisfy `\s+` under backtracking, because every shorter prefix is
followed by another `#`) followed by at least one whitespace character;
the greedy `\s+` consumes the whole whitespace run. -/
def stripHeadingsF : Nat → List Char → List Char
  | 0, l => l
  | _ + 1, [] => []
  | fuel + 1, c :: rest =>
    if c = '#' then
      let hashes := (rest.takeWhile (fun d => d = '#')).length + 1
      let afterHash := rest.dropWhile (fun d => d = '#')
      if hashes ≤ 6 && headWsB afterHash then
        stripHeadingsF fuel (afterHash.dropWhile isJsSpace)
      else c :: stripHeadingsF fuel rest
    else c :: stripHeadingsF fuel rest

/-- Lazy search for the two-character closing delimiter of
`\*\*(.+?)\*\*`: grow the capture (`acc`, reversed) one non-newline
character at a time, and succeed as soon as the remaining input starts
with the doubled delimiter and the capture is non-empty.  Returns the
capture and the input after the closing delimiter. -/
def findClose2F (d : Char) : Nat → List Char → List Char → Option (List Char × List Char)
  | 0, _, _ => none
  | _ + 1, _, [] => none
  | fuel + 1, acc, c :: cs =>
    if acc ≠ [] && c = d && headIs d cs then some (acc.reverse, cs.drop 1)
    else if c = '\n' then none
    else findClose2F d fuel (c :: acc) cs

/-- Lazy search for a single-character closing delimiter
(`\*(.+?)\*` and `` `(.+?)` `` patterns). -/
def findClose1F (d : Char) : Nat → List Char → List Char → Option (List Char × List Char)
  | 0, _, _ => none
  | _ + 1, _, [] => none
  | fuel + 1, acc, c :: cs =>
    if acc ≠ [] && c = d then some (acc.reverse, cs)
    else if c = '\n' then none
    else findClose1F d fuel (c :: acc) cs

/-- One global pass of `.replace(/\*\*(.+?)\*\*/g, '$1')`. -/
def stripBoldF : Nat → List Char → List Char
  | 0, l => l
  | _ + 1, [] => []
  | fuel + 1, c :: rest =>
    if c = '*' && headIs '*' rest then
      match findClose2F '*' (fuel + 1) [] (rest.drop 1) with
      | some (cap, tail) => cap ++ stripBoldF fuel tail
      | none => c :: stripBoldF fuel rest
    else c :: stripBoldF fuel rest

/-- One global pass of a `.replace(/d(.+?)d/g, '$1')` pattern with a
single-character delimiter `d` (the italic and inline-code steps). -/
def stripDelim1F (d : Char) : Nat → List Char → List Char
  | 0, l => l
  | _ + 1, [] => []
  | fuel + 1, c :: rest =>
    if c = d then
      match findClose1F d (fuel + 1) [] rest with
      | some (cap, tail) => cap ++ stripDelim1F d fuel tail
      | none => c :: stripDelim1F d fuel rest
    else c :: stripDelim1F d fuel rest

/-- The backtick character (written by code point to keep source plain). -/
def backtickChar : Char := Char.ofNat 96

/-- Opening of a triple-backtick fence at the head of the list. -/
def headFence (l : List Char) : Bool :=
  headIs backtickChar l && headIs backtickChar (l.drop 1) && headIs backtickChar (l.drop 2)

/-- Lazy search for the next triple-backtick fence; returns the input
after it.  The code-block pattern uses a class matching anything, so the
scan crosses newlines. -/
def findFenceF : Nat → List Char → Option (List Char)
  | 0, _ => none
  | _ + 1, [] => none
  | fuel + 1, c :: cs =>
    if headFence (c :: cs) then some (cs.drop 2)
    else findFenceF fuel cs

/-- One global pass of the code-block removal step: a triple-backtick
fence, lazily anything, then the next triple-backtick fence, replaced by
the empty string. -/
def stripCodeBlocksF : Nat → List Char → List Char
  | 0, l => l
  | _ + 1, [] => []
  | fuel + 1, c :: rest =>
    if headFence (c :: rest) then
      match findFenceF (fuel + 1) (rest.drop 2) with
      | some tail => stripCodeBlocksF fuel tail
      | none => c :: stripCodeBlocksF fuel rest
    else c :: stripCodeBlocksF fuel rest

/-- The `\(.+?\)` part of the link/image patterns: at least one
non-newline character, then the first `)`.  Returns the input after `)`. -/
def scanCloseParenF : Nat → List Char → Option (List Char)
  | 0, _ => none
  | _ + 1, [] => none
  | fuel + 1, c :: cs =>
    if c = ')' then some cs
    else if c = '\n' then none
    else scanCloseParenF fuel cs

def scanParenF : Nat → List Char → Option (List Char)
  | 0, _ => none
  | _ + 1, [] => none
  | _ + 1, c :: cs =>
    if c = '\n' then none else scanCloseParenF (cs.length + 1) cs

/-- Lazy search, with backtracking, for `](` followed by a successful
paren part, as in `\[(.+?)\]\(.+?\)`.  The capture grows one non-newline
character at a time; a `](` boundary whose paren part fails is absorbed
into the capture and the search continues.  `allowEmpty` distinguishes
the image pattern's `(.*?)` from the link pattern's `(.+?)`. -/
def scanLinkF (allowEmpty : Bool) : Nat → List Char → List Char → Option (List Char × List Char)
  | 0, _, _ => none
  | _ + 1, _, [] => none
  | fuel + 1, acc, c :: cs =>
    if (allowEmpty || acc ≠ []) && c = ']' && headIs '(' cs then
      match scanParenF (cs.length + 1) (cs.drop 1) with
      | some tail => some (acc.reverse, tail)
      | none => scanLinkF allowEmpty fuel (c :: acc) cs
    else if c = '\n' then none
    else scanLinkF allowEmpty fuel (c :: acc) cs

/-- One global pass of `.replace(/\[(.+?)\]\(.+?\)/g, '$1')`. -/
def stripLinksF : Nat → List Char → List Char
  | 0, l => l
  | _ + 1, [] => []
  | fuel + 1, c :: rest =>
    if c = '[' then
      match scanLinkF false (fuel + 1) [] rest with
      | some (cap, tail) => cap ++ stripLinksF fuel tail
      | none => c :: stripLinksF fuel rest
    else c :: stripLinksF fuel rest

/-- One global pass of `.replace(/!\[(.*?)\]\(.+?\)/g, '')`. -/
def stripImagesF : Nat → List Char → List Char
  | 0, l => l
  | _ + 1, [] => []
  | fuel + 1, c :: rest =>
    if c = '!' && headIs '[' rest then
      match scanLinkF true (fuel + 1) [] (rest.drop 1) with
      | some (_, tail) => stripImagesF fuel tail
      | none => c :: stripImagesF fuel rest
    else c :: stripImagesF fuel rest

/-- One global pass of a `.replace(/M\s+/g, '')` pattern where `M` is a
one-character class: a marker character followed by at least one
whitespace character (greedy).  Used for the blockquote (`>`) and
unordered-list (`[-*+]`) steps; note the pattern is not anchored to line
starts. -/
def stripMarkerWsF (marker : Char → Bool) : Nat → List Char → List Char
  | 0, l => l
  | _ + 1, [] => []
  | fuel + 1, c :: rest =>
    if marker c && headWsB rest then stripMarkerWsF marker fuel (rest.dropWhile isJsSpace)
    else c :: stripMarkerWsF marker fuel rest

def isListMarkerChar (c : Char) : Bool := c = '-' || c = '*' || c = '+'

/-- One global pass of `.replace(/\d+\.\s+/g, '')`: a full digit run
(backtracking to a shorter run can never help, since the next character
would be a digit, not `.`) followed by `.` and at least one whitespace
character. -/
def stripOrderedF : Nat → List Char → List Char
  | 0, l => l
  | _ + 1, [] => []
  | fuel + 1, c :: rest =>
    if isDigitChar c then
      match rest.dropWhile isDigitChar with
      | '.' :: r2 =>
        if headWsB r2 then stripOrderedF fuel (r2.dropWhile isJsSpace)
        else c :: stripOrderedF fuel rest
      | _ => c :: stripOrderedF fuel rest
    else c :: stripOrderedF fuel rest

namespace Markdown

/-- The `countWords` function of `src/utils/markdown.ts`: the eleven
`.replace` steps in source order, then `trim`, then the
`plainText ? plainText.split(/\s+/).length : 0` token count.  No step
lengthens the text, so fuel derived from the input length is sufficient
for every pass. -/
def countWords (markdown : String) : Nat :=
  let l := markdown.data
  let f := l.length + 1
  countTokens (jsTrim (newlinesToSpaces
    (stripOrderedF f
      (stripMarkerWsF isListMarkerChar f
        (stripMarkerWsF (fun c => c = '>') f
          (stripImagesF f
            (stripLinksF f
              (stripCodeBlocksF f
                (stripDelim1F backtickChar f
                  (stripDelim1F '*' f
                    (stripBoldF f
                      (stripHeadingsF f l))))))))))))

end Markdown

/-- A heading record, as produced by `extractHeadings`. -/
structure Heading where
  level : Nat
  text : String
  id : String
deriving DecidableEq, Repr

/-- Construction of one heading from its level and the raw matched text:
`text = raw.trim()`, `id = text.toLowerCase().replace(/[^\w]+/g, '-')`. -/
def mkHeading (level : Nat) (raw : List Char) : Heading :=
  ⟨level, String.mk (jsTrim raw), String.mk (slugChars (jsTrim raw))⟩

/-- Drop everything up to and including the next newline (the scanner
resumes at the next position where the `m`-flagged `^` anchor can hold). -/
def dropThroughNl (l : List Char) : List Char :=
  match l.dropWhile (fun d => !(d = '\n')) with
  | [] => []
  | _ :: t => t

/-- Search, from `j` downward to 1, for the largest index whose character
exists and is not a newline: the backtracking of the greedy `\s+` when
the dot of `(.+)` has to match a whitespace character. -/
def findLargestNonNl (l : List Char) : Nat → Option Nat
  | 0 => none
  | j + 1 =>
    match l[j + 1]? with
    | some c => if !(c = '\n') then some (j + 1) else findLargestNonNl l j
    | none => findLargestNonNl l j

/-- Number of whitespace characters consumed by `\s+` in
`^(#{1,6})\s+(.+)$`, after backtracking: the greedy run of length `w`
if a character follows it (that character is then not whitespace, hence
not a newline, and `(.+)` can start there), otherwise the largest
shorter split whose next character is not a newline.  `none` means the
match fails at this anchor position. -/
def jChoice (l : List Char) (w : Nat) : Option Nat :=
  if w = 0 then none
  else if !(l.drop w = []) then some w
  else findLargestNonNl l (w - 1)

/-- The `headingRegex.exec` loop of `extractHeadings`: at each position
where `^` can hold, try to match `(#{1,6})\s+(.+)$`; a run of more than
six `#` can never match (every prefix of it is followed by `#`), `\s+`
may cross newlines, and `(.+)` greedily extends to the end of the line.
On failure the scan resumes after the next newline; on success it
resumes after the newline that terminated `(.+)`. -/
def scanHeadingsF : Nat → List Char → List Heading
  | 0, _ => []
  | _ + 1, [] => []
  | fuel + 1, c :: rest =>
    if c = '#' then
      let hashes := (rest.takeWhile (fun d => d = '#')).length + 1
      let afterHash := rest.dropWhile (fun d => d = '#')
      if hashes ≤ 6 then
        match jChoice afterHash ((afterHash.takeWhile isJsSpace).length) with
        | some j =>
          let tail := afterHash.drop j
          mkHeading hashes (tail.takeWhile (fun d => !(d = '\n'))) ::
            scanHeadingsF fuel (dropThroughNl tail)
        | none => scanHeadingsF fuel (dropThroughNl (c :: rest))
      else scanHeadingsF fuel (dropThroughNl (c :: rest))
    else scanHeadingsF fuel (dropThroughNl (c :: rest))

/-- The `extractHeadings` function of `src/utils/markdown.ts`. -/
def extractHeadings (markdown : String) : List Heading :=
  scanHeadingsF (markdown.data.length + 1) markdown.data

/-- Model of the Prism collaborator: `registered lang` states that
`Prism.languages[lang]` exists and is a proper grammar object, and
`highlight code lang` abstracts `Prism.highlight(code, grammar, lang)`.
Prism is an external library, so `highlight` stays abstract: the claims
only exercise the branch where the language is not registered. -/
structure PrismModel where
  registered : String → Bool
  highlight : String → String → String

/-- The alias table of `highlightCode` (`languageMap`). -/
def languageMap (l : String) : Option String :=
  if l = "js" then some "javascript"
  else if l = "ts" then some "typescript"
  else if l = "py" then some "python"
  else if l = "sh" then some "bash"
  else if l = "shell" then some "bash"
  else if l = "yml" then some "yaml"
  else if l = "md" then some "markdown"
  else if l = "cs" then some "csharp"
  else none

/-- `languageMap[lang] || lang` (the table never maps to a falsy value). -/
def normalizeLang (lang : String) : String := (languageMap lang).getD lang

/-- The language components imported by `src/utils/markdown.ts`
(part_004): these are the grammars registered with Prism at module load. -/
def prismLangs : List String :=
  ["markup", "css", "clike", "javascript", "typescript", "jsx", "tsx", "scss",
   "json", "bash", "python", "java", "csharp", "sql", "yaml", "markdown",
   "markup-templating", "php"]

/-- A concrete Prism instance for evaluating the model: the registered
set is the import list above; the grammar engine's markup output is
abstracted as the identity (no settled claim depends on it). -/
def prismDefault : PrismModel :=
  ⟨fun lang => prismLangs.contains lang, fun code _ => code⟩

namespace Markdown

/-- The `highlightCode` of `src/utils/markdown.ts` (part_004, the
SSR-fixed file): normalize the language, use Prism when the grammar is
registered, otherwise fall back to the HTML-escaped raw code.  The
try/catch and the `typeof language === 'object'` guard are folded into
`registered`; the model is total, matching the function's never-throws
contract. -/
def highlightCode (prism : PrismModel) (code lang : String) : String :=
  let normalizedLang := normalizeLang lang
  if prism.registered normalizedLang then prism.highlight code normalizedLang
  else escapeHtml code

end Markdown

namespace MarkdownLegacy

/-- The `highlightCode` of the duplicate older markdown utility file
(part_005): identical lookup, but the fallback returns the raw code
without any escaping (`// Fallback to plain text`). -/
def highlightCode (prism : PrismModel) (code lang : String) : String :=
  let normalizedLang := normalizeLang lang
  if prism.registered normalizedLang then prism.highlight code normalizedLang
  else code

end MarkdownLegacy

/-- The `MarkdownOptions` interface of `src/types/index.ts`. -/
structure MarkdownOptions where
  breaks : Bool
  gfm : Bool
  sanitize : Bool
  highlight : Option (String → String → String) := none

namespace Markdown

/-- The `renderer.code` override installed by `configureMarked`
(part_004): language defaults to `"text"` when absent or empty (JS
falsiness of `language || 'text'`), the highlighter is the options'
`highlight` function when set and the built-in `highlightCode`
otherwise, and the result is wrapped in the code-block template. -/
def rendererCode (prism : PrismModel) (options : MarkdownOptions)
    (code : String) (language : Option String) : String :=
  let lang := match language with
    | none => "text"
    | some s => if s = "" then "text" else s
  let highlighted := match options.highlight with
    | some f => f code lang
    | none => highlightCode prism code lang
  "\n      <div class=\"code-block\">\n        <div class=\"code-header\">\n          <span class=\"code-language\">" ++
    lang ++
    "</span>\n        </div>\n        <pre class=\"language-" ++ lang ++
    "\"><code class=\"language-" ++ lang ++ "\">" ++ highlighted ++
    "</code></pre>\n      </div>\n    "

/-- The title attribute fragment of `renderer.link`:
`title ? \x60 title="${title}"\x60 : ''` (an empty title is falsy). -/
def titleAttrOf (title : Option String) : String :=
  match title with
  | some t => if t = "" then "" else " title=\"" ++ t ++ "\""
  | none => ""

/-- The external-link test of `renderer.link` (part_004):
`href.startsWith('http') && currentOrigin && !href.startsWith(currentOrigin)`.
It is a string-prefix test against the current origin, not a comparison
of parsed URL origins. -/
def isExternalLink (currentOrigin href : String) : Bool :=
  strStartsWith href "http" && !(currentOrigin = "") && !(strStartsWith href currentOrigin)

/-- The `renderer.link` override installed by `configureMarked`
(part_004; `currentOrigin` is `getCurrentOrigin()`, the page origin in a
browser and `''` otherwise). -/
def rendererLink (currentOrigin href : String) (title : Option String) (text : String) : String :=
  let titleAttr := titleAttrOf title
  let isExternal := isExternalLink currentOrigin href
  let relAttr := if isExternal then " rel=\"noopener noreferrer\"" else ""
  let targetAttr := if isExternal then " target=\"_blank\"" else ""
  "<a href=\"" ++ href ++ "\"" ++ titleAttr ++ relAttr ++ targetAttr ++
    " class=\"link\">" ++ text ++ "</a>"

end Markdown

namespace DOMPurify

/-- Modelled from the spec: DOMPurify is an external dependency, not a
source file of this repository, so `DOMPurify.sanitize(html, config)` is
modelled from §4.4 of the spec: the HTML string is parsed into tags and
text, tag and attribute names are matched case-insensitively against the
configured allow-lists, a disallowed tag is dropped while its content is
preserved (`KEEP_CONTENT: true`), disallowed attributes are dropped, and
the result is re-serialized with text and attribute values escaped, as a
DOM serializer does.  The `ALLOWED_TAGS` list of `parseMarkdown`. -/
def allowedTags : List (List Char) :=
  ["h1".data, "h2".data, "h3".data, "h4".data, "h5".data, "h6".data,
   "p".data, "br".data, "strong".data, "em".data, "u".data, "s".data,
   "del".data, "ins".data,
   "ul".data, "ol".data, "li".data, "dl".data, "dt".data, "dd".data,
   "blockquote".data, "q".data, "cite".data,
   "code".data, "pre".data, "kbd".data, "samp".data, "var".data,
   "a".data, "img".data, "figure".data, "figcaption".data,
   "table".data, "thead".data, "tbody".data, "tfoot".data, "tr".data,
   "td".data, "th".data, "caption".data,
   "div".data, "span".data, "section".data, "article".data, "aside".data,
   "nav".data, "header".data, "footer".data,
   "hr".data, "details".data, "summary".data]

/-- The `ALLOWED_ATTR` list of `parseMarkdown`. -/
def allowedAttrs : List (List Char) :=
  ["href".data, "title".data, "alt".data, "src".data, "width".data, "height".data,
   "class".data, "id".data, "lang".data, "dir".data,
   "target".data, "rel".data, "type".data, "start".data, "reversed".data,
   "open".data, "colspan".data, "rowspan".data, "scope".data]

structure HtmlAttr where
  name : List Char
  value : List Char
deriving DecidableEq, Repr

structure HtmlTag where
  name : List Char
  closing : Bool
  attrs : List HtmlAttr
deriving DecidableEq, Repr

inductive HtmlToken where
  | text (s : List Char)
  | tag (t : HtmlTag)
deriving DecidableEq, Repr

/-- Characters allowed in tag and attribute names. -/
def isNameChar (c : Char) : Bool :=
  ('a' ≤ c && c ≤ 'z') || ('A' ≤ c && c ≤ 'Z') || isDigitChar c || c = '-'

/-- Attribute parsing inside a tag: skip whitespace, read a name, then an
optional `=` with a double-quoted, single-quoted or bare value; any other
character is skipped.  Names are lowercased. -/
def parseAttrsF : Nat → List Char → List HtmlAttr
  | 0, _ => []
  | _ + 1, [] => []
  | fuel + 1, c :: rest =>
    if isJsSpace c then parseAttrsF fuel rest
    else if isNameChar c then
      let aname := (c :: rest.takeWhile isNameChar).map Char.toLower
      match rest.dropWhile isNameChar with
      | '=' :: r2 =>
        match r2 with
        | '"' :: r3 =>
          ⟨aname, r3.takeWhile (fun d => !(d = '"'))⟩ ::
            parseAttrsF fuel ((r3.dropWhile (fun d => !(d = '"'))).drop 1)
        | '\'' :: r3 =>
          ⟨aname, r3.takeWhile (fun d => !(d = '\''))⟩ ::
            parseAttrsF fuel ((r3.dropWhile (fun d => !(d = '\''))).drop 1)
        | _ =>
          ⟨aname, r2.takeWhile (fun d => !(isJsSpace d))⟩ ::
            parseAttrsF fuel (r2.dropWhile (fun d => !(isJsSpace d)))
      | r1 => ⟨aname, []⟩ :: parseAttrsF fuel r1
    else parseAttrsF fuel rest

/-- Parse the inside of a `<...>` region into a tag. -/
def parseTagInner (inner : List Char) : HtmlTag :=
  match inner with
  | '/' :: r => ⟨(r.takeWhile isNameChar).map Char.toLower, true, []⟩
  | _ => ⟨(inner.takeWhile isNameChar).map Char.toLower, false,
          parseAttrsF (inner.length + 1) (inner.dropWhile isNameChar)⟩

/-- Split at the first `>`: the region before it and the input after. -/
def splitUntilGt : List Char → Option (List Char × List Char)
  | [] => none
  | c :: rest =>
    if c = '>' then some ([], rest)
    else
      match splitUntilGt rest with
      | some (a, b) => some (c :: a, b)
      | none => none

/-- Tokenizer: `<` opens a tag region closed by the next `>` (a `<` with
no closing `>` is literal text, as in an HTML parser); everything else is
text up to the next `<`. -/
def tokenizeHtmlF : Nat → List Char → List HtmlToken
  | 0, l => if l = [] then [] else [.text l]
  | _ + 1, [] => []
  | fuel + 1, c :: rest =>
    if c = '<' then
      match splitUntilGt rest with
      | some (inner, after) => .tag (parseTagInner inner) :: tokenizeHtmlF fuel after
      | none => [.text (c :: rest)]
    else
      .text (c :: rest.takeWhile (fun d => !(d = '<'))) ::
        tokenizeHtmlF fuel (rest.dropWhile (fun d => !(d = '<')))

/-- Serializer escaping for text nodes. -/
def escapeTextChar (c : Char) : List Char :=
  if c = '&' then "&amp;".data
  else if c = '<' then "&lt;".data
  else if c = '>' then "&gt;".data
  else [c]

def escapeText (l : List Char) : List Char := (l.map escapeTextChar).flatten

/-- Serializer escaping for attribute values. -/
def escapeAttrChar (c : Char) : List Char :=
  if c = '&' then "&amp;".data
  else if c = '<' then "&lt;".data
  else if c = '>' then "&gt;".data
  else if c = '"' then "&quot;".data
  else [c]

def escapeAttrValue (l : List Char) : List Char := (l.map escapeAttrChar).flatten

def serializeAttr (a : HtmlAttr) : List Char :=
  ' ' :: a.name ++ '=' :: '"' :: escapeAttrValue a.value ++ ['"']

def serializeTag (t : HtmlTag) : List Char :=
  if t.closing then '<' :: ('/' :: (t.name ++ ['>']))
  else '<' :: (t.name ++ ((t.attrs.map serializeAttr).flatten ++ ['>']))

def serializeToken : HtmlToken → List Char
  | .text s => escapeText s
  | .tag t => serializeTag t

def serializeTokens (toks : List HtmlToken) : List Char :=
  (toks.map serializeToken).flatten

/-- Filtering of one token against the allow-lists: a disallowed tag is
dropped (its content tokens remain: `KEEP_CONTENT`), and a kept tag loses
its disallowed attributes. -/
def keepToken : HtmlToken → Option HtmlToken
  | .text s => some (.text s)
  | .tag t =>
    if t.name ∈ allowedTags then
      some (.tag ⟨t.name, t.closing, t.attrs.filter (fun a => a.name ∈ allowedAttrs)⟩)
    else none

/-- The token stream after filtering against the allow-lists. -/
def sanitizeTokens (l : List Char) : List HtmlToken :=
  (tokenizeHtmlF (l.length + 1) l).filterMap keepToken

/-- The modelled `DOMPurify.sanitize(html, {ALLOWED_TAGS, ALLOWED_ATTR,
KEEP_CONTENT: true})`. -/
def sanitize (html : String) : String :=
  String.mk (serializeTokens (sanitizeTokens html.data))

end DOMPurify

namespace Markdown

/-- The placeholder returned for empty or whitespace-only input. -/
def placeholderHtml : String :=
  "<p class=\"text-muted-foreground italic\">Start typing to see preview...</p>"

/-- The `options?.sanitize !== false` test of `parseMarkdown`. -/
def optSanitize : Option MarkdownOptions → Bool
  | none => true
  | some o => o.sanitize

/-- The options record `parseMarkdown` hands to `configureMarked`
(part_004 lines 197-202): caller flags with `?? true` defaults, and the
`highlight` field set to the built-in `highlightCode` — regardless of any
`highlight` function in the caller's options. -/
def parseMarkdownOptions (prism : PrismModel) (options : Option MarkdownOptions) : MarkdownOptions :=
  { breaks := (options.map (fun o => o.breaks)).getD true
    gfm := (options.map (fun o => o.gfm)).getD true
    sanitize := (options.map (fun o => o.sanitize)).getD true
    highlight := some (highlightCode prism) }

/-- The `parseMarkdown` of `src/utils/markdown.ts` (part_004).  The
underlying marked engine is the parameter `parse`, invoked with the
configured options (`configureMarked(...).parse(markdown)` — the marked
library is external).  `isBrowserEnv` models `isBrowser()` and
`domPurifyDefined` models `typeof DOMPurify !== 'undefined'`.  The model
is total, so the catch branch that wraps parser-internal exceptions into
an error paragraph is not reachable here. -/
def parseMarkdown (prism : PrismModel) (parse : MarkdownOptions → String → String)
    (isBrowserEnv domPurifyDefined : Bool)
    (markdown : String) (options : Option MarkdownOptions) : String :=
  if jsTrim markdown.data = [] then placeholderHtml
  else
    let html := parse (parseMarkdownOptions prism options) markdown
    if optSanitize options && isBrowserEnv && domPurifyDefined then
      DOMPurify.sanitize html
    else html

/-- The `estimateReadingTime` of `src/utils/markdown.ts`:
`Math.ceil(wordCount / wpm)`, with `wpm` defaulting to `200`.  The JS
number division is modelled exactly over the rationals. -/
def estimateReadingTime (wordCount : Nat) (wpm : Nat := 200) : Int :=
  ⌈(wordCount : ℚ) / (wpm : ℚ)⌉

end Markdown

/-- First occurrence of `sub` in the second list: the part before it and
the part after it. -/
def splitAtSubF : Nat → List Char → List Char → Option (List Char × List Char)
  | 0, _, _ => none
  | _ + 1, sub, [] => if isPrefixB sub [] then some ([], []) else none
  | fuel + 1, sub, c :: rest =>
    if isPrefixB sub (c :: rest) then some ([], (c :: rest).drop sub.length)
    else
      match splitAtSubF fuel sub rest with
      | some (a, b) => some (c :: a, b)
      | none => none

/-- Modelled from the spec: the web origin (scheme and authority,
`scheme://host[:port]`) of an absolute URL, used to state the link
claim's "origin differs from the current page origin" condition; empty
when the URL has no `://`. -/
def specUrlOrigin (href : String) : String :=
  match splitAtSubF (href.data.length + 1) "://".data href.data with
  | some (scheme, rest) =>
    String.mk (scheme ++ "://".data ++ rest.takeWhile (fun c => !(c = '/')))
  | none => ""

/-- The characters of `"script"`, for the script-tag safety argument. -/
def scriptChars : List Char := ['s', 'c', 'r', 'i', 'p', 't']

/-- The two lists disagree at some position covered by both, so no
extension of the second can have the first as a prefix. -/
def incompat : List Char → List Char → Bool
  | [], _ => false
  | _ :: _, [] => false
  | a :: as, b :: bs => if a = b then incompat as bs else true

/-- Every occurrence of `<` in the list is followed by material that can
never begin with `script`, even after appending more text: the invariant
of serialized sanitized output. -/
def ltSafeS : List Char → Bool
  | [] => true
  | c :: rest => (if c = '<' then incompat scriptChars rest else true) && ltSafeS rest

/-- The serialized form ` name="value"` of an attribute with this name
would contain a substring matching `on[a-z]+=` exactly when some suffix
of the name is `on` followed by one or more lowercase letters (the `=`
follows the name immediately in the serialization). -/
def attrOnPattern (n : List Char) : Bool :=
  n.tails.any (fun t =>
    match t with
    | 'o' :: 'n' :: c :: cs => isLowerAlpha c && cs.all isLowerAlpha
    | _ => false)

namespace DOMPurify

/-- The attribute names carried by a token. -/
def tokenAttrNames : HtmlToken → List (List Char)
  | .text _ => []
  | .tag t => t.attrs.map (fun a => a.name)

/-- A token whose serialization is safe: a tag must come from the tag
allow-list and carry only allow-listed attributes. -/
def TokSafe : HtmlToken → Prop
  | .text _ => True
  | .tag t => t.name ∈ allowedTags ∧ ∀ a ∈ t.attrs, a.name ∈ allowedAttrs

/-- No attribute emitted by any of the tokens matches `on[a-z]+=`. -/
def NoOnAttrTokens (toks : List HtmlToken) : Prop :=
  ∀ t ∈ toks, ∀ a ∈ tokenAttrNames t, attrOnPattern a = false

instance (toks : List HtmlToken) : Decidable (NoOnAttrTokens toks) := by
  unfold NoOnAttrTokens; exact inferInstance

end DOMPurify

/-- Safety of a sanitized output string: it has no `<script` substring,
and it is the serialization of a token stream none of whose attributes
matches the `on[a-z]+=` event-handler pattern. -/
def SanitizedSafe (s : String) : Prop :=
  ¬ strHasSub "<script" s ∧
  ∃ toks, s.data = DOMPurify.serializeTokens toks ∧ DOMPurify.NoOnAttrTokens toks

end MarkdownEditor

namespace MarkdownEditor

theorem isPrefixB_iff (p l : List Char) : isPrefixB p l = true ↔ ∃ r, l = p ++ r := by
  induction p generalizing l with
  | nil => simp [isPrefixB]
  | cons a as ih =>
    cases l with
    | nil => simp [isPrefixB]
    | cons b bs =>
      simp only [isPrefixB, Bool.and_eq_true, decide_eq_true_eq, ih, List.cons_append,
        List.cons.injEq]
      constructor
      · rintro ⟨rfl, r, rfl⟩; exact ⟨r, rfl, rfl⟩
      · rintro ⟨r, rfl, rfl⟩; exact ⟨rfl, r, rfl⟩

theorem substrB_iff (sub l : List Char) : substrB sub l = true ↔ ∃ a b, l = a ++ sub ++ b := by
  induction l with
  | nil =>
    simp only [substrB, isPrefixB_iff]
    constructor
    · rintro ⟨r, h⟩
      exact ⟨[], r, by simpa using h⟩
    · rintro ⟨a, b, h⟩
      refine ⟨b, ?_⟩
      have := h.symm
      rcases List.append_eq_nil.mp (List.append_eq_nil.mp this).1 with ⟨_, h2⟩
      simp_all
  | cons c rest ih =>
    simp only [substrB, Bool.or_eq_true, isPrefixB_iff, ih]
    constructor
    · rintro (⟨r, h⟩ | ⟨a, b, h⟩)
      · exact ⟨[], r, by simpa using h⟩
      · exact ⟨c :: a, b, by simp [h]⟩
    · rintro ⟨a, b, h⟩
      cases a with
      | nil => exact Or.inl ⟨b, by simpa using h⟩
      | cons a0 as =>
        simp only [List.cons_append, List.cons.injEq] at h
        exact Or.inr ⟨as, b, h.2⟩

theorem incompat_append (p l m : List Char) (h : incompat p l = true) :
    incompat p (l ++ m) = true := by
  induction p generalizing l with
  | nil => simp [incompat] at h
  | cons a as ih =>
    cases l with
    | nil => simp [incompat] at h
    | cons b bs =>
      simp only [incompat, List.cons_append] at h ⊢
      split at h
      · exact (by split <;> simp_all [ih bs h])
      · simp_all

theorem incompat_self_append (p m : List Char) : incompat p (p ++ m) = false := by
  induction p with
  | nil => simp [incompat]
  | cons a as ih => simpa [incompat] using ih

theorem ltSafeS_append (x y : List Char) (hx : ltSafeS x = true) (hy : ltSafeS y = true) :
    ltSafeS (x ++ y) = true := by
  induction x with
  | nil => simpa using hy
  | cons c cs ih =>
    simp only [ltSafeS, Bool.and_eq_true] at hx
    simp only [List.cons_append, ltSafeS, Bool.and_eq_true]
    refine ⟨?_, ih hx.2⟩
    by_cases hc : c = '<'
    · rw [if_pos hc]
      rw [if_pos hc] at hx
      exact incompat_append _ _ _ hx.1
    · rw [if_neg hc]

theorem ltSafeS_of_no_lt (l : List Char) (h : ∀ c ∈ l, ¬ c = '<') : ltSafeS l = true := by
  induction l with
  | nil => rfl
  | cons c cs ih =>
    simp only [ltSafeS, Bool.and_eq_true]
    refine ⟨?_, ih fun d hd => h d (List.mem_cons_of_mem _ hd)⟩
    rw [if_neg (h c (List.mem_cons_self _ _))]

theorem ltSafeS_split (l a b : List Char) (hs : ltSafeS l = true) (he : l = a ++ '<' :: b) :
    incompat scriptChars b = true := by
  subst he
  induction a with
  | nil =>
    simp only [List.nil_append, ltSafeS, Bool.and_eq_true, if_pos rfl] at hs
    exact hs.1
  | cons c cs ih =>
    simp only [List.cons_append, ltSafeS, Bool.and_eq_true] at hs
    exact ih hs.2

theorem ltSafeS_no_script (l : List Char) (hs : ltSafeS l = true) :
    substrB ('<' :: scriptChars) l = false := by
  by_contra h
  have h' : substrB ('<' :: scriptChars) l = true := by
    cases hb : substrB ('<' :: scriptChars) l
    · exact absurd hb h
    · rfl
  rcases (substrB_iff _ _).mp h' with ⟨a, b, he⟩
  have he2 : l = a ++ '<' :: (scriptChars ++ b) := by simp [he]
  have := ltSafeS_split l a (scriptChars ++ b) hs he2
  rw [incompat_self_append] at this
  exact absurd this (by simp)

theorem allowedTags_no_lt : ∀ n ∈ DOMPurify.allowedTags, ¬ '<' ∈ n := by decide

theorem allowedAttrs_no_lt : ∀ n ∈ DOMPurify.allowedAttrs, ¬ '<' ∈ n := by decide

theorem allowedTags_incompat_gt :
    ∀ n ∈ DOMPurify.allowedTags, incompat scriptChars (n ++ ['>']) = true := by decide

theorem allowedTags_incompat_space :
    ∀ n ∈ DOMPurify.allowedTags, incompat scriptChars (n ++ [' ']) = true := by decide

theorem allowedAttrs_no_on : ∀ n ∈ DOMPurify.allowedAttrs, attrOnPattern n = false := by decide

theorem escapeTextChar_no_lt (c : Char) : ¬ '<' ∈ DOMPurify.escapeTextChar c := by
  unfold DOMPurify.escapeTextChar
  split_ifs with h1 h2 h3
  · decide
  · decide
  · decide
  · simp only [List.mem_singleton]
    intro hm
    exact h2 hm.symm

theorem escapeText_no_lt (l : List Char) : ¬ '<' ∈ DOMPurify.escapeText l := by
  unfold DOMPurify.escapeText
  intro h
  rcases List.mem_flatten.mp h with ⟨piece, hp, hc⟩
  rcases List.mem_map.mp hp with ⟨c, _, rfl⟩
  exact escapeTextChar_no_lt c hc

theorem escapeAttrChar_no_lt (c : Char) : ¬ '<' ∈ DOMPurify.escapeAttrChar c := by
  unfold DOMPurify.escapeAttrChar
  split_ifs with h1 h2 h3 h4
  · decide
  · decide
  · decide
  · decide
  · simp only [List.mem_singleton]
    intro hm
    exact h2 hm.symm

theorem escapeAttrValue_no_lt (l : List Char) : ¬ '<' ∈ DOMPurify.escapeAttrValue l := by
  unfold DOMPurify.escapeAttrValue
  intro h
  rcases List.mem_flatten.mp h with ⟨piece, hp, hc⟩
  rcases List.mem_map.mp hp with ⟨c, _, rfl⟩
  exact escapeAttrChar_no_lt c hc

theorem serializeAttr_no_lt (a : DOMPurify.HtmlAttr) (h : ¬ '<' ∈ a.name) :
    ¬ '<' ∈ DOMPurify.serializeAttr a := by
  have hv := escapeAttrValue_no_lt a.value
  intro hm
  unfold DOMPurify.serializeAttr at hm
  simp at hm
  tauto

theorem serializeAttr_head (a : DOMPurify.HtmlAttr) :
    ∃ w, DOMPurify.serializeAttr a = ' ' :: w :=
  ⟨_, rfl⟩

theorem ltSafeS_lt_cons (body : List Char) (h1 : incompat scriptChars body = true)
    (h2 : ltSafeS body = true) : ltSafeS ('<' :: body) = true := by
  simp [ltSafeS, h1, h2]

theorem serializeTag_ltSafe (t : DOMPurify.HtmlTag)
    (hname : t.name ∈ DOMPurify.allowedTags)
    (hattrs : ∀ a ∈ t.attrs, a.name ∈ DOMPurify.allowedAttrs) :
    ltSafeS (DOMPurify.serializeTag t) = true := by
  unfold DOMPurify.serializeTag
  split
  · -- closing tag: the character after < is /, which mismatches script at once
    refine ltSafeS_lt_cons _ (by simp [scriptChars, incompat]) ?_
    refine ltSafeS_of_no_lt _ fun c hc => ?_
    intro hceq
    subst hceq
    simp only [List.mem_cons, List.mem_append, List.mem_singleton] at hc
    rcases hc with h1 | h2 | h3
    · exact absurd h1 (by decide)
    · exact allowedTags_no_lt _ hname h2
    · exact absurd h3 (by decide)
  · -- opening tag
    refine ltSafeS_lt_cons _ ?_ ?_
    · cases hat : t.attrs with
      | nil =>
        simp only [hat, List.map_nil, List.flatten_nil, List.nil_append]
        exact allowedTags_incompat_gt _ hname
      | cons a rest =>
        obtain ⟨w, hw⟩ := serializeAttr_head a
        simp only [hat, List.map_cons, List.flatten_cons, hw, List.cons_append]
        rw [show t.name ++ ' ' :: ((w ++ (rest.map DOMPurify.serializeAttr).flatten) ++ ['>'])
            = (t.name ++ [' ']) ++ ((w ++ (rest.map DOMPurify.serializeAttr).flatten) ++ ['>'])
          by simp]
        exact incompat_append _ _ _ (allowedTags_incompat_space _ hname)
    · refine ltSafeS_of_no_lt _ fun c hc => ?_
      intro hceq
      subst hceq
      simp only [List.mem_append, List.mem_singleton] at hc
      rcases hc with h1 | h2 | h3
      · exact allowedTags_no_lt _ hname h1
      · rcases List.mem_flatten.mp h2 with ⟨piece, hp, hcp⟩
        rcases List.mem_map.mp hp with ⟨a, ha, rfl⟩
        exact serializeAttr_no_lt a (allowedAttrs_no_lt _ (hattrs a ha)) hcp
      · exact absurd h3 (by decide)

theorem serializeToken_ltSafe (tok : DOMPurify.HtmlToken) (h : DOMPurify.TokSafe tok) :
    ltSafeS (DOMPurify.serializeToken tok) = true := by
  cases tok with
  | text s => exact ltSafeS_of_no_lt _ fun c hc hl => escapeText_no_lt s (hl ▸ hc)
  | tag t => exact serializeTag_ltSafe t h.1 h.2

theorem serializeTokens_ltSafe (toks : List DOMPurify.HtmlToken)
    (h : ∀ tok ∈ toks, DOMPurify.TokSafe tok) :
    ltSafeS (DOMPurify.serializeTokens toks) = true := by
  induction toks with
  | nil => rfl
  | cons tok rest ih =>
    unfold DOMPurify.serializeTokens
    simp only [List.map_cons, List.flatten_cons]
    exact ltSafeS_append _ _
      (serializeToken_ltSafe tok (h tok (List.mem_cons_self _ _)))
      (ih fun t ht => h t (List.mem_cons_of_mem _ ht))

theorem sanitizeTokens_tokSafe (l : List Char) :
    ∀ tok ∈ DOMPurify.sanitizeTokens l, DOMPurify.TokSafe tok := by
  intro tok htok
  unfold DOMPurify.sanitizeTokens at htok
  rcases List.mem_filterMap.mp htok with ⟨src, _, hf⟩
  cases src with
  | text s =>
    simp only [DOMPurify.keepToken] at hf
    cases hf
    trivial
  | tag t =>
    simp only [DOMPurify.keepToken] at hf
    by_cases htag : t.name ∈ DOMPurify.allowedTags
    · rw [if_pos htag] at hf
      cases hf
      exact ⟨htag, fun a ha => of_decide_eq_true (List.mem_filter.mp ha).2⟩
    · rw [if_neg htag] at hf
      exact absurd hf (by simp)

theorem sanitize_safe (html : String) : SanitizedSafe (DOMPurify.sanitize html) := by
  constructor
  · intro hsub
    unfold strHasSub at hsub
    rw [show "<script".data = '<' :: scriptChars from rfl] at hsub
    rw [show (DOMPurify.sanitize html).data
        = DOMPurify.serializeTokens (DOMPurify.sanitizeTokens html.data) from rfl] at hsub
    have hs := serializeTokens_ltSafe (DOMPurify.sanitizeTokens html.data)
      (sanitizeTokens_tokSafe _)
    rw [ltSafeS_no_script _ hs] at hsub
    exact absurd hsub (by simp)
  · refine ⟨DOMPurify.sanitizeTokens html.data, rfl, ?_⟩
    intro t ht a ha
    have hsafe := sanitizeTokens_tokSafe html.data t ht
    cases t with
    | text s => simp [DOMPurify.tokenAttrNames] at ha
    | tag tg =>
      simp only [DOMPurify.tokenAttrNames] at ha
      rcases List.mem_map.mp ha with ⟨attr, hattr, rfl⟩
      exact allowedAttrs_no_on _ (hsafe.2 attr hattr)

theorem placeholder_safe : SanitizedSafe Markdown.placeholderHtml := by
  constructor
  · decide
  · refine ⟨[.tag ⟨"p".data, false, [⟨"class".data, "text-muted-foreground italic".data⟩]⟩,
      .text "Start typing to see preview...".data,
      .tag ⟨"p".data, true, []⟩], ?_, ?_⟩
    · decide
    · decide

theorem scanHeadingsF_mem (fuel : Nat) :
    ∀ (l : List Char) (h : Heading), h ∈ scanHeadingsF fuel l →
      h.id = slugString h.text ∧ 1 ≤ h.level ∧ h.level ≤ 6 := by
  induction fuel with
  | zero => intro l h hm; simp [scanHeadingsF] at hm
  | succ n ih =>
    intro l h hm
    cases l with
    | nil => simp [scanHeadingsF] at hm
    | cons c rest =>
      simp only [scanHeadingsF] at hm
      by_cases hc : c = '#'
      · rw [if_pos hc] at hm
        by_cases h6 : (rest.takeWhile (fun d => d = '#')).length + 1 ≤ 6
        · rw [if_pos h6] at hm
          rcases hj : jChoice (rest.dropWhile (fun d => d = '#'))
              ((rest.dropWhile (fun d => d = '#')).takeWhile isJsSpace).length with _ | j
          · rw [hj] at hm
            exact ih _ h hm
          · rw [hj] at hm
            rcases List.mem_cons.mp hm with heq | hmem
            · subst heq
              exact ⟨rfl, by simp only [mkHeading]; omega, h6⟩
            · exact ih _ h hmem
        · rw [if_neg h6] at hm
          exact ih _ h hm
      · rw [if_neg hc] at hm
        exact ih _ h hm

theorem estimateReadingTime_eq_ceilDiv (w wpm : Nat) (h : 0 < wpm) :
    Markdown.estimateReadingTime w wpm = ((w + wpm - 1) / wpm : Nat) := by
  unfold Markdown.estimateReadingTime
  have hdm := Nat.div_add_mod (w + wpm - 1) wpm
  have hmod : (w + wpm - 1) % wpm < wpm := Nat.mod_lt _ h
  have hpos : (0 : ℚ) < wpm := by exact_mod_cast h
  generalize hq : (w + wpm - 1) / wpm = q at *
  generalize hm : (w + wpm - 1) % wpm = m at *
  have h1 : w ≤ wpm * q := by omega
  have h2 : wpm * q < w + wpm := by omega
  have hc1 : (w : ℚ) ≤ wpm * q := by exact_mod_cast h1
  have hc2 : (wpm : ℚ) * q < w + wpm := by exact_mod_cast h2
  rw [Int.ceil_eq_iff]
  constructor
  · push_cast
    rw [lt_div_iff₀ hpos]
    nlinarith
  · push_cast
    rw [div_le_iff₀ hpos]
    nlinarith

/-- C1: for every markdown string and every options record requesting
sanitization (and any behaviour of the underlying marked parser), the
output of `parseMarkdown` in a DOM-capable environment contains no
`<script` substring, and is the serialization of a token stream in which
no tag carries an attribute matching the `on[a-z]+=` event-handler
pattern — in particular for inputs containing raw
`<script>alert(1)</script>` or `<img onerror=...>` HTML. -/
theorem C1_parseMarkdown_sanitized_safe (prism : PrismModel)
    (parse : MarkdownOptions → String → String) (options : Option MarkdownOptions)
    (markdown : String) (hsan : Markdown.optSanitize options = true) :
    SanitizedSafe (Markdown.parseMarkdown prism parse true true markdown options) := by
  unfold Markdown.parseMarkdown
  split
  · exact placeholder_safe
  · rw [hsan]
    simp only [Bool.true_and, Bool.and_self, if_true]
    exact sanitize_safe _

/-- C1 witness: the safety property evaluated at the claim's own attack
string, with default options. -/
theorem C1_witness :
    Markdown.optSanitize none = true ∧
    SanitizedSafe (Markdown.parseMarkdown prismDefault (fun _ s => s) true true
      "<script>alert(1)</script>" none) :=
  ⟨rfl, C1_parseMarkdown_sanitized_safe prismDefault (fun _ s => s) none
    "<script>alert(1)</script>" rfl⟩

/-- C2 counterexample: with sanitization requested (default options) but
no DOM-capable environment (`isBrowser()` false), `parseMarkdown` returns
the parser's HTML unchanged and unsanitized — here a script tag — so the
claim that the unsanitized HTML is never silently returned is false. -/
theorem C2_counterexample :
    Markdown.parseMarkdown prismDefault (fun _ _ => "<script>alert(1)</script>") false true
      "hello" none = "<script>alert(1)</script>" ∧
    strHasSub "<script"
      (Markdown.parseMarkdown prismDefault (fun _ _ => "<script>alert(1)</script>") false true
        "hello" none) := by
  constructor
  · decide
  · decide

/-- C2 amended: when no DOM-capable environment is available and
sanitization is requested, `parseMarkdown` silently returns the raw
parser HTML; nothing in the returned value signals that sanitization was
skipped. -/
theorem C2_ssr_returns_unsanitized (prism : PrismModel)
    (parse : MarkdownOptions → String → String) (domPurifyDefined : Bool)
    (markdown : String) (options : Option MarkdownOptions)
    (hblank : ¬ jsTrim markdown.data = []) (hsan : Markdown.optSanitize options = true) :
    Markdown.parseMarkdown prism parse false domPurifyDefined markdown options
      = parse (Markdown.parseMarkdownOptions prism options) markdown := by
  unfold Markdown.parseMarkdown
  rw [if_neg hblank]
  simp

/-- C2 witness: the amended statement evaluated at a concrete parse
result. -/
theorem C2_ssr_witness :
    Markdown.parseMarkdown prismDefault (fun _ _ => "<p>x</p>") false true "hi" none
      = "<p>x</p>" :=
  C2_ssr_returns_unsanitized prismDefault (fun _ _ => "<p>x</p>") true "hi" none
    (by decide) rfl

/-- C3 counterexample: the duplicate older markdown utility file's
`highlightCode` returns the code unescaped for an unregistered language
(`brainfuck-v2` is not a registered grammar), while the claim requires
the HTML-escaped code. -/
theorem C3_counterexample :
    MarkdownLegacy.highlightCode prismDefault "a<b" "brainfuck-v2" = "a<b" ∧
    escapeHtml "a<b" = "a&lt;b" ∧
    ¬ ("a<b" : String) = "a&lt;b" := by
  refine ⟨?_, ?_, ?_⟩ <;> decide

/-- C3 amended: the SSR-fixed implementation's `highlightCode` does
return the HTML-escaped code (escaping `& < > " '`, never throwing) for
every code string and every language whose normalized form is not
registered; the older duplicate implementation returns the code
unescaped. -/
theorem C3_highlight_fallback_escapes (prism : PrismModel) (code lang : String)
    (h : prism.registered (normalizeLang lang) = false) :
    Markdown.highlightCode prism code lang = escapeHtml code := by
  unfold Markdown.highlightCode
  simp [h]

/-- C3 witness: the fallback evaluated at the claim's unknown language
tag on code containing every escapable character. -/
theorem C3_witness :
    prismDefault.registered (normalizeLang "brainfuck-v2") = false ∧
    Markdown.highlightCode prismDefault "a<b \"q\" 'z' & c" "brainfuck-v2"
      = "a&lt;b &quot;q&quot; &#39;z&#39; &amp; c" := by
  refine ⟨by decide, ?_⟩
  rw [C3_highlight_fallback_escapes prismDefault "a<b \"q\" 'z' & c" "brainfuck-v2" (by decide)]
  decide

/-- C4 counterexample: a fenced code block containing two words does not
contribute zero to the word count. -/
theorem C4_counterexample :
    ¬ Markdown.countWords "```\nfoo bar\n```" = 0 := by decide

/-- C4 amended: `countWords` strips markup in the listed sequence, but
because the inline-code step runs before the code-block step and rewrites
each triple-backtick fence to a single backtick, fenced code-block
content is not dropped: its words are counted, plus one token per
leftover fence backtick — the two-word fenced block counts 4.  On inputs
whose fences are not destroyed this way the remaining steps behave as
listed (the spec's own inline example counts 5). -/
theorem C4_codeblock_words_counted :
    Markdown.countWords "```\nfoo bar\n```" = 4 ∧
    Markdown.countWords "**bold** and *italic* and `code`" = 5 := by
  constructor
  · decide
  · decide

/-- C5: `parseMarkdown` hands `configureMarked` an options record whose
`highlight` field is the built-in `highlightCode`, discarding the
caller's `highlight` function; the code-block renderer therefore uses the
built-in highlighter (HTML-escaped output for an unregistered language)
and the caller's function is never consulted. -/
theorem C5_highlight_override_ignored :
    (Markdown.parseMarkdownOptions prismDefault
        (some ⟨true, true, false, some (fun _ _ => "CUSTOM")⟩)).highlight
      = some (Markdown.highlightCode prismDefault) ∧
    Markdown.rendererCode prismDefault
        (Markdown.parseMarkdownOptions prismDefault
          (some ⟨true, true, false, some (fun _ _ => "CUSTOM")⟩)) "a<b" (some "zzz")
      = Markdown.rendererCode prismDefault
          (Markdown.parseMarkdownOptions prismDefault
            (some ⟨true, true, false, none⟩)) "a<b" (some "zzz") ∧
    strHasSub "a&lt;b"
      (Markdown.rendererCode prismDefault
        (Markdown.parseMarkdownOptions prismDefault
          (some ⟨true, true, false, some (fun _ _ => "CUSTOM")⟩)) "a<b" (some "zzz")) ∧
    ¬ strHasSub "CUSTOM"
      (Markdown.rendererCode prismDefault
        (Markdown.parseMarkdownOptions prismDefault
          (some ⟨true, true, false, some (fun _ _ => "CUSTOM")⟩)) "a<b" (some "zzz")) := by
  refine ⟨rfl, rfl, ?_, ?_⟩
  · decide
  · decide

/-- C6: for every options record (including none) and both environment
flags, `parseMarkdown` on an input whose trim is empty returns the fixed
italicized start-typing placeholder paragraph. -/
theorem C6_blank_input_placeholder (prism : PrismModel)
    (parse : MarkdownOptions → String → String) (isBrowserEnv domPurifyDefined : Bool)
    (markdown : String) (options : Option MarkdownOptions)
    (h : jsTrim markdown.data = []) :
    Markdown.parseMarkdown prism parse isBrowserEnv domPurifyDefined markdown options
      = Markdown.placeholderHtml := by
  unfold Markdown.parseMarkdown
  rw [if_pos h]

/-- C6 witness: the placeholder behaviour at `""` and at `"   "` under
different option records. -/
theorem C6_witness :
    Markdown.parseMarkdown prismDefault (fun _ s => s) true true "" none
      = Markdown.placeholderHtml ∧
    Markdown.parseMarkdown prismDefault (fun _ s => s) false true "   "
        (some ⟨false, false, false, none⟩)
      = Markdown.placeholderHtml :=
  ⟨C6_blank_input_placeholder prismDefault (fun _ s => s) true true "" none (by decide),
   C6_blank_input_placeholder prismDefault (fun _ s => s) false true "   "
     (some ⟨false, false, false, none⟩) (by decide)⟩

/-- C7 counterexample: `href = "http://example.com.evil.org/x"` is an
absolute URL whose origin differs from the available page origin
`"http://example.com"`, yet the rendered anchor receives neither
`target="_blank"` nor `rel="noopener noreferrer"`, because the renderer
tests string prefixes, not parsed origins. -/
theorem C7_counterexample :
    strStartsWith "http://example.com.evil.org/x" "http" = true ∧
    ¬ ("http://example.com" : String) = "" ∧
    specUrlOrigin "http://example.com.evil.org/x" = "http://example.com.evil.org" ∧
    ¬ specUrlOrigin "http://example.com.evil.org/x" = "http://example.com" ∧
    Markdown.rendererLink "http://example.com" "http://example.com.evil.org/x" none "evil"
      = "<a href=\"http://example.com.evil.org/x\" class=\"link\">evil</a>" := by
  refine ⟨?_, ?_, ?_, ?_, ?_⟩ <;> decide

/-- C7 amended: the external test is the string-prefix condition
`href.startsWith("http") && origin nonempty && not href.startsWith(origin)`;
exactly the hrefs passing it receive `rel="noopener noreferrer"` and
`target="_blank"`, all others receive neither; the `title` attribute is
emitted exactly for a present non-empty title (an empty title is falsy in
JS and produces no attribute). -/
theorem C7_rendererLink_attrs (currentOrigin href : String)
    (title : Option String) (text : String) :
    (Markdown.isExternalLink currentOrigin href = true →
      Markdown.rendererLink currentOrigin href title text
        = "<a href=\"" ++ href ++ "\"" ++ Markdown.titleAttrOf title ++
          " rel=\"noopener noreferrer\"" ++ " target=\"_blank\"" ++
          " class=\"link\">" ++ text ++ "</a>") ∧
    (Markdown.isExternalLink currentOrigin href = false →
      Markdown.rendererLink currentOrigin href title text
        = "<a href=\"" ++ href ++ "\"" ++ Markdown.titleAttrOf title ++
          " class=\"link\">" ++ text ++ "</a>") ∧
    Markdown.titleAttrOf none = "" ∧
    Markdown.titleAttrOf (some "") = "" ∧
    (∀ t : String, ¬ t = "" → Markdown.titleAttrOf (some t) = " title=\"" ++ t ++ "\"") := by
  refine ⟨?_, ?_, rfl, rfl, ?_⟩
  · intro h
    unfold Markdown.rendererLink
    rw [h]
    simp
  · intro h
    unfold Markdown.rendererLink
    rw [h]
    simp
  · intro t ht
    simp only [Markdown.titleAttrOf]
    rw [if_neg ht]

/-- C7 witness: the amended statement applied to a concrete external link
with a title. -/
theorem C7_witness :
    Markdown.rendererLink "https://a.com" "http://b.org/p" (some "t") "x"
      = "<a href=\"" ++ "http://b.org/p" ++ "\"" ++ Markdown.titleAttrOf (some "t") ++
        " rel=\"noopener noreferrer\"" ++ " target=\"_blank\"" ++
        " class=\"link\">" ++ "x" ++ "</a>" :=
  (C7_rendererLink_attrs "https://a.com" "http://b.org/p" (some "t") "x").1 (by decide)

/-- C8: `extractHeadings "# A\n## B\n### C"` is exactly the three
headings of the claim, and every heading any input produces has an id
equal to the lowercased text with non-word runs collapsed to a hyphen and
a level between 1 and 6. -/
theorem C8_extractHeadings_spec :
    extractHeadings "# A\n## B\n### C"
      = [⟨1, "A", "a"⟩, ⟨2, "B", "b"⟩, ⟨3, "C", "c"⟩] ∧
    ∀ (m : String) (h : Heading), h ∈ extractHeadings m →
      h.id = slugString h.text ∧ 1 ≤ h.level ∧ h.level ≤ 6 := by
  constructor
  · decide
  · intro m h hm
    exact scanHeadingsF_mem _ _ _ hm

/-- C8 witness: the membership property discharged at a concrete heading. -/
theorem C8_witness :
    (⟨1, "Hello World!", "hello-world-"⟩ : Heading) ∈ extractHeadings "# Hello World!" ∧
    (⟨1, "Hello World!", "hello-world-"⟩ : Heading).id
      = slugString (⟨1, "Hello World!", "hello-world-"⟩ : Heading).text :=
  ⟨by decide,
   (C8_extractHeadings_spec.2 "# Hello World!" ⟨1, "Hello World!", "hello-world-"⟩
     (by decide)).1⟩

/-- C9: for every word count and positive words-per-minute,
`estimateReadingTime` is the ceiling of the division (equivalently the
rounded-up integer division); the parameter defaults to 200; and
`estimateReadingTime 450 200 = 3`. -/
theorem C9_estimateReadingTime_ceil (wordCount wpm : Nat) (h : 0 < wpm) :
    Markdown.estimateReadingTime wordCount wpm = ((wordCount + wpm - 1) / wpm : Nat) ∧
    Markdown.estimateReadingTime wordCount = Markdown.estimateReadingTime wordCount 200 ∧
    Markdown.estimateReadingTime 450 200 = 3 := by
  refine ⟨estimateReadingTime_eq_ceilDiv wordCount wpm h, rfl, ?_⟩
  rw [estimateReadingTime_eq_ceilDiv 450 200 (by norm_num)]
  decide

/-- C9 witness: the ceiling characterization at the claim's own numbers. -/
theorem C9_witness :
    0 < 200 ∧ Markdown.estimateReadingTime 450 200 = ((450 + 200 - 1) / 200 : Nat) :=
  ⟨by decide, (C9_estimateReadingTime_ceil 450 200 (by decide)).1⟩

/-- C10: the blockquote-marker step of `countWords` deletes every
`>` followed by whitespace, wherever it occurs — not only at line starts —
so `countWords "5 > 3" = 2`, and a text with two mid-line comparisons
loses both operators (5 tokens instead of 7). -/
theorem C10_blockquote_strip_anywhere :
    Markdown.countWords "5 > 3" = 2 ∧
    Markdown.countWords "a > b and c > d" = 5 := by
  constructor
  · decide
  · decide

end MarkdownEditor
